import Mathlib

/-! Shallow embedding of SerialEcho.py together with proofs about its
behaviour.  Text is modelled as List Char, byte strings as List Nat,
wall-clock time in milliseconds, and the side-effecting serial operations
as explicit operation traces and state passing. -/

namespace SerialEcho

/-! Section: the escape-sequence stripper, remove_ansi_escape_sequences.
The source compiles the regular expression
(\x9B|\x1B\[)[0-?]*[ -?]*[@-~] (the middle class is the range 0x20 to
0x2F) and substitutes every match by the empty string.  Python re.sub
scans left to right, removing non-overlapping leftmost matches and
continuing after each removed match without rescanning the output.
Because the three character classes are pairwise disjoint, the greedy
match at a given start position is deterministic maximal munch. -/

/-- Parameter byte of a CSI sequence: the regex class from 0x30 to 0x3F. -/
def isCsiParam (c : Char) : Bool := 0x30 ≤ c.toNat && c.toNat ≤ 0x3F

/-- Intermediate byte of a CSI sequence: the regex class from 0x20 to 0x2F. -/
def isCsiInter (c : Char) : Bool := 0x20 ≤ c.toNat && c.toNat ≤ 0x2F

/-- Final byte of a CSI sequence: the regex class from 0x40 to 0x7E. -/
def isCsiFinal (c : Char) : Bool := 0x40 ≤ c.toNat && c.toNat ≤ 0x7E

/-- Matches the introducer alternative of the regex at the head of the
list: either the single byte 0x9B or the pair 0x1B followed by the open
bracket; returns the remainder after the introducer. -/
def csiBody (l : List Char) : Option (List Char) :=
  match l with
  | [] => none
  | c :: rest =>
    if c.toNat = 0x9B then some rest
    else if c.toNat = 0x1B then
      match rest with
      | d :: rest2 => if d.toNat = 0x5B then some rest2 else none
      | [] => none
    else none

/-- Matches the full CSI regex at the start of the list, returning the
remainder after the match, or none when no match starts here. -/
def csiMatch (l : List Char) : Option (List Char) :=
  match csiBody l with
  | none => none
  | some body =>
    match (body.dropWhile isCsiParam).dropWhile isCsiInter with
    | f :: rest => if isCsiFinal f then some rest else none
    | [] => none

/-- Fuelled worker for the substitution loop of re.sub: at each position
either remove a leftmost match and continue after it, or keep the head
byte and continue.  Each step consumes at least one list element, so a
fuel equal to the length of the list is always sufficient. -/
def stripCSIFuel : Nat → List Char → List Char
  | 0, l => l
  | _ + 1, [] => []
  | n + 1, c :: cs =>
    match csiMatch (c :: cs) with
    | some rest => stripCSIFuel n rest
    | none => c :: stripCSIFuel n cs

/-- Model of remove_ansi_escape_sequences (source lines 43 to 48). -/
def stripCSI (l : List Char) : List Char := stripCSIFuel l.length l

/-- True when some position of the list starts a complete CSI match. -/
def containsCSI : List Char → Bool
  | [] => false
  | c :: rest => (csiMatch (c :: rest)).isSome || containsCSI rest

/-- A complete control-sequence-introducer sequence, in the shape of the
regex: an introducer (the single byte 0x9B, or ESC followed by the open
bracket), zero or more parameter bytes, zero or more intermediate bytes,
and one final byte. -/
def IsCsiSpan (m : List Char) : Prop :=
  ∃ lead params inters f,
    m = lead ++ params ++ inters ++ [f] ∧
    (lead = [Char.ofNat 0x9B] ∨ lead = [Char.ofNat 0x1B, '[']) ∧
    (∀ c ∈ params, isCsiParam c = true) ∧
    (∀ c ∈ inters, isCsiInter c = true) ∧
    isCsiFinal f = true

/-- Relates an input text to an output obtained by walking the input
left to right, keeping bytes verbatim and deleting whole CSI sequences:
a derivation shows that every byte outside a deleted sequence appears in
the output unchanged and in its original order, and that every deleted
segment is a complete CSI sequence. -/
inductive StripDecomp : List Char → List Char → Prop
  | nil : StripDecomp [] []
  | keep (c : Char) {l out : List Char} :
      StripDecomp l out → StripDecomp (c :: l) (c :: out)
  | remove {m l out : List Char} :
      IsCsiSpan m → StripDecomp l out → StripDecomp (m ++ l) out

/-! Section: print_serial_log (source lines 51 to 62), buffered branch.
The buffered branch splits the text on the two-character terminator
CR LF, drops the first and last segment, drops empty segments, joins the
rest with a single LF, strips escape sequences from the joined text and
finally replaces every remaining CR LF pair by LF. -/

/-- Prepends a character to the first segment of a split result. -/
def consHead (c : Char) : List (List Char) → List (List Char)
  | [] => [[c]]
  | s :: ss => (c :: s) :: ss

/-- Model of the Python str.split on the two-character separator CR LF:
leftmost, non-overlapping occurrences separate the segments. -/
def splitCRLF : List Char → List (List Char)
  | '\r' :: '\n' :: rest => [] :: splitCRLF rest
  | c :: rest => consHead c (splitCRLF rest)
  | [] => [[]]

/-- Model of the Python str.replace of CR LF by LF: leftmost,
non-overlapping occurrences are replaced left to right. -/
def replCRLF : List Char → List Char
  | '\r' :: '\n' :: rest => '\n' :: replCRLF rest
  | c :: rest => c :: replCRLF rest
  | [] => []

/-- Model of the Python join method for the one-character separator LF. -/
def joinLines : List (List Char) → List Char
  | [] => []
  | [s] => s
  | s :: rest => s ++ '\n' :: joinLines rest

/-- Segments kept by the buffered cleanup: all segments except the first
and the last, with empty segments removed (source lines 60 to 61). -/
def keptSegments (data : List Char) : List (List Char) :=
  (((splitCRLF data).drop 1).dropLast).filter (fun s => !s.isEmpty)

/-- Model of the buffered (string-argument) branch of print_serial_log
(source lines 58 to 62): the text printed below the delimiter header. -/
def print_serial_log_buffered (data : List Char) : List Char :=
  replCRLF (stripCSI (joinLines (keptSegments data)))

/-! Section: byte-level text conversions used at the end of read_stream
(source line 134): rbuf.strip() removes leading and trailing ASCII
whitespace bytes, and decode with the ignore error handler drops every
byte sequence that is not valid UTF-8. -/

/-- ASCII whitespace bytes stripped by Python bytes.strip(). -/
def isSpaceByte (b : Nat) : Bool :=
  b = 0x20 || b = 0x09 || b = 0x0A || b = 0x0D || b = 0x0B || b = 0x0C

/-- Model of Python bytes.strip(): drop ASCII whitespace from both ends. -/
def bytesStrip (l : List Nat) : List Nat :=
  ((l.dropWhile isSpaceByte).reverse.dropWhile isSpaceByte).reverse

/-- Continuation byte of a UTF-8 sequence, in the range 0x80 to 0xBF. -/
def utf8Cont (b : Nat) : Bool := 0x80 ≤ b && b ≤ 0xBF

/-- Admissible first continuation byte after a three-byte leader: 0xE0
forbids overlong encodings and 0xED forbids surrogates. -/
def utf8Cont3First (b b1 : Nat) : Bool :=
  if b = 0xE0 then 0xA0 ≤ b1 && b1 ≤ 0xBF
  else if b = 0xED then 0x80 ≤ b1 && b1 ≤ 0x9F
  else utf8Cont b1

/-- Admissible first continuation byte after a four-byte leader: 0xF0
forbids overlong encodings and 0xF4 caps at U+10FFFF. -/
def utf8Cont4First (b b1 : Nat) : Bool :=
  if b = 0xF0 then 0x90 ≤ b1 && b1 ≤ 0xBF
  else if b = 0xF4 then 0x80 ≤ b1 && b1 ≤ 0x8F
  else utf8Cont b1

/-- Fuelled worker for the UTF-8 decoder: each step consumes at least
one byte, so a fuel equal to the length of the list always suffices. -/
def decodeUtf8IgnoreFuel : Nat → List Nat → List Char
  | 0, _ => []
  | _ + 1, [] => []
  | n + 1, b :: rest =>
    if b < 0x80 then Char.ofNat b :: decodeUtf8IgnoreFuel n rest
    else if b < 0xC2 then decodeUtf8IgnoreFuel n rest
    else if b ≤ 0xDF then
      match rest with
      | [] => []
      | b1 :: rest1 =>
        if utf8Cont b1 then
          Char.ofNat ((b - 0xC0) * 64 + (b1 - 0x80)) :: decodeUtf8IgnoreFuel n rest1
        else decodeUtf8IgnoreFuel n rest
    else if b ≤ 0xEF then
      match rest with
      | [] => []
      | b1 :: rest1 =>
        if utf8Cont3First b b1 then
          match rest1 with
          | [] => []
          | b2 :: rest2 =>
            if utf8Cont b2 then
              Char.ofNat ((b - 0xE0) * 4096 + (b1 - 0x80) * 64 + (b2 - 0x80)) ::
                decodeUtf8IgnoreFuel n rest2
            else decodeUtf8IgnoreFuel n rest1
        else decodeUtf8IgnoreFuel n rest
    else if b ≤ 0xF4 then
      match rest with
      | [] => []
      | b1 :: rest1 =>
        if utf8Cont4First b b1 then
          match rest1 with
          | [] => []
          | b2 :: rest2 =>
            if utf8Cont b2 then
              match rest2 with
              | [] => []
              | b3 :: rest3 =>
                if utf8Cont b3 then
                  Char.ofNat ((b - 0xF0) * 262144 + (b1 - 0x80) * 4096 +
                      (b2 - 0x80) * 64 + (b3 - 0x80)) :: decodeUtf8IgnoreFuel n rest3
                else decodeUtf8IgnoreFuel n rest2
            else decodeUtf8IgnoreFuel n rest1
        else decodeUtf8IgnoreFuel n rest
    else decodeUtf8IgnoreFuel n rest

/-- Model of Python bytes.decode with the utf-8 codec and the ignore
error handler: valid sequences decode to their scalar value, and an
invalid or truncated sequence is skipped (its maximal valid subpart is
consumed without producing output, matching CPython). -/
def decodeUtf8Ignore (l : List Nat) : List Char :=
  decodeUtf8IgnoreFuel l.length l

/-- Model of source line 134: the text handed to print_serial_log is the
stripped buffer decoded as UTF-8 with undecodable bytes dropped. -/
def log_msg_of (rbuf : List Nat) : List Char :=
  decodeUtf8Ignore (bytesStrip rbuf)

/-- UTF-8 encoding of one character, as Python str.encode produces. -/
def utf8EncodeChar (c : Char) : List Nat :=
  let n := c.toNat
  if n < 0x80 then [n]
  else if n < 0x800 then [0xC0 + n / 64, 0x80 + n % 64]
  else if n < 0x10000 then [0xE0 + n / 4096, 0x80 + n / 64 % 64, 0x80 + n % 64]
  else [0xF0 + n / 262144, 0x80 + n / 4096 % 64, 0x80 + n / 64 % 64, 0x80 + n % 64]

/-- UTF-8 encoding of a text, as Python str.encode produces. -/
def utf8Encode (s : List Char) : List Nat := (s.map utf8EncodeChar).flatten

/-- The two-character line terminator appended to every command. -/
def crlf : List Char := ['\r', '\n']

/-! Section: the idle-timeout read loop of read_stream (source lines 118
to 136).  Time is measured in milliseconds; every loop iteration checks
in_waiting, then either drains the buffered bytes or tests the idle
condition, and always sleeps the 100 millisecond poll interval, so
iteration k happens at time pollMs * k.  The byte arrival pattern is a
function inw giving the bytes found waiting at iteration k. -/

/-- The poll interval of the read loop, time.sleep(0.1), in milliseconds. -/
def pollMs : Nat := 100

/-- last_data_time before iteration k: initialized to the start time 0,
and reset to the current time at every iteration that found bytes. -/
def lastAt (inw : Nat → List Nat) : Nat → Nat
  | 0 => 0
  | k + 1 => if inw k = [] then lastAt inw k else pollMs * k

/-- rbuf before iteration k: bytes are appended exactly at the
iterations that found some waiting. -/
def bufAt (inw : Nat → List Nat) : Nat → List Nat
  | 0 => []
  | k + 1 => if inw k = [] then bufAt inw k else bufAt inw k ++ inw k

/-- The loop breaks at iteration k: nothing is waiting and the elapsed
time since last_data_time strictly exceeds the timeout (milliseconds). -/
def exitsAt (inw : Nat → List Nat) (timeoutMs k : Nat) : Prop :=
  inw k = [] ∧ timeoutMs < pollMs * k - lastAt inw k

instance (inw : Nat → List Nat) (timeoutMs k : Nat) :
    Decidable (exitsAt inw timeoutMs k) :=
  inferInstanceAs (Decidable (inw k = [] ∧ timeoutMs < pollMs * k - lastAt inw k))

/-- The loop returns at iteration k: it breaks there and at no earlier
iteration. -/
def returnsFirstAt (inw : Nat → List Nat) (timeoutMs k : Nat) : Prop :=
  exitsAt inw timeoutMs k ∧ ∀ j, j < k → ¬ exitsAt inw timeoutMs j

instance (inw : Nat → List Nat) (timeoutMs k : Nat) :
    Decidable (returnsFirstAt inw timeoutMs k) :=
  inferInstanceAs (Decidable (_ ∧ ∀ j, j < k → ¬ exitsAt inw timeoutMs j))

/-! Section: the transmit paths as operation traces.  A trace records, in
program order, the writes to the port, the sleeps, the one conditional
drain of buffered input, and the hand-off to read_stream. -/

/-- One observable serial-port side effect. -/
inductive SerialOp where
  | write (bytes : List Nat)
  | sleepMs (ms : Nat)
  | discardInput
  | readStream
  deriving DecidableEq

/-- The payloads of the write operations of a trace, in order. -/
def writesOf : List SerialOp → List (List Nat)
  | [] => []
  | SerialOp.write b :: r => b :: writesOf r
  | _ :: r => writesOf r

/-- All bytes put on the wire by a trace, in order. -/
def bytesWritten (t : List SerialOp) : List Nat := (writesOf t).flatten

/-- Milliseconds slept before the read phase starts. -/
def msBeforeRead : List SerialOp → Nat
  | [] => 0
  | SerialOp.readStream :: _ => 0
  | SerialOp.sleepMs m :: r => m + msBeforeRead r
  | _ :: r => msBeforeRead r

/-- Model of SerialLink.send_cmd (source lines 88 to 94): one write of
the encoded command plus terminator, a 500 millisecond settle sleep,
then read_stream. -/
def send_cmd (cmd : List Char) : List SerialOp :=
  [SerialOp.write (utf8Encode (cmd ++ crlf)), SerialOp.sleepMs 500,
    SerialOp.readStream]

/-- Model of SerialLink.send_cmd_char_by_char (source lines 96 to 116):
write a bare terminator, sleep one second, drain the input buffer when
bytes are pending, then write each character of the command plus
terminator followed by a 150 millisecond sleep, then read_stream.  The
pending flag models the in_waiting test at source line 104. -/
def send_cmd_char_by_char (cmd : List Char) (pending : Bool) : List SerialOp :=
  [SerialOp.write [0x0D, 0x0A], SerialOp.sleepMs 1000] ++
    (if pending then [SerialOp.discardInput] else []) ++
    ((cmd ++ crlf).map fun c => [SerialOp.write (utf8EncodeChar c),
      SerialOp.sleepMs 150]).flatten ++
    [SerialOp.readStream]

/-! Section: session state.  A SerialLink owns one port handle with an
open flag; written accumulates every byte put on the wire. -/

/-- State of the port handle owned by a SerialLink. -/
structure LinkState where
  is_open : Bool
  written : List Nat
  deriving DecidableEq

/-- Appends bytes to the wire. -/
def writeBytes (s : LinkState) (b : List Nat) : LinkState :=
  { s with written := s.written ++ b }

/-- Model of SerialLink.send_ctrl_c (source lines 138 to 145): one write
of the single byte 0x03. -/
def send_ctrl_c (s : LinkState) : LinkState := writeBytes s [0x03]

/-- Model of SerialLink.close (source lines 147 to 151): the underlying
handle is closed only when it is open.  The boolean reports whether the
underlying close operation ran. -/
def close (s : LinkState) : LinkState × Bool :=
  if s.is_open then ({ s with is_open := false }, true) else (s, false)

/-- Outcome of read_stream: either the loop breaks and the accumulated
buffer is returned, or a KeyboardInterrupt ends the program through
sys.exit with the manual-stop message (a controlled SystemExit, distinct
from the error exits whose messages start with Error). -/
inductive ReadResult where
  | returned (buf : List Nat)
  | stoppedManually
  deriving DecidableEq

/-- Model of the KeyboardInterrupt handler of read_stream (source lines
131 to 133) followed by interpreter shutdown: send_ctrl_c writes the
single interrupt byte, sys.exit raises SystemExit, and the finalizer
(source lines 153 to 154) closes the link.  The buffer rbuf accumulated
so far is discarded. -/
def read_stream_interrupted (s : LinkState) (rbuf : List Nat) :
    LinkState × ReadResult :=
  let s1 := send_ctrl_c s
  ((close s1).1, ReadResult.stoppedManually)

/-! Section: the command-line dispatch (source lines 158 to 174).  The
parser registers exactly the subcommands send and send_ls (source lines
23 and 32), so parsing yields none, send or send_ls; the dispatch
compares against send and against send906. -/

/-- Action taken by the main block for a parsed subcommand. -/
inductive MainAction where
  | bulkSend
  | pacedSend
  | ctrlCRelay
  | printHelpAndExit1
  deriving DecidableEq

/-- The subcommand values the argument parser can produce (source lines
20, 23 and 32): no subcommand, send, or send_ls. -/
def parseableSubcommands : List (Option String) :=
  [none, some "send", some "send_ls"]

/-- Model of the main dispatch (source lines 158 to 174). -/
def dispatch (subcommand : Option String) (command : List String) : MainAction :=
  if subcommand = some "send" then MainAction.bulkSend
  else if subcommand = some "send906" then
    (if command = ["Ctrl+C"] then MainAction.ctrlCRelay else MainAction.pacedSend)
  else MainAction.printHelpAndExit1

/-! Section: concrete inputs used by counterexamples and witnesses. -/

/-- A buffer whose stripped output still contains a CSI sequence: the
truncated introducer left in place becomes adjacent to the final byte of
a removed sequence plus the following byte. -/
def c3Input : List Char := ['\x1B', '[', '\x1B', '[', '3', '1', 'm', 'm']

/-- Raw log whose second segment ends in a bare carriage return, so the
rejoined text contains a CR LF pair that the final replace collapses. -/
def c4Input : List Char :=
  ['A', '\r', '\n', 'x', '\r', '\r', '\n', 'y', '\r', '\n', 'B']

/-- Raw log with three plain segments. -/
def c4Witness : List Char := ['A', '\r', '\n', 'x', '\r', '\n', 'B']

/-- Arrival schedule: one chunk at the first poll, then silence. -/
def arrOnce : Nat → List Nat := fun k => if k = 0 then [0x4F] else []

/-- Arrival schedule: a chunk at every poll. -/
def arrAlways : Nat → List Nat := fun _ => [0x4B]

/-- Arrival schedule: permanent silence. -/
def arrNever : Nat → List Nat := fun _ => []

/-- Arrival schedule: one chunk at the first poll, then silence. -/
def arrOnceData : Nat → List Nat := fun k => if k = 0 then [0x31] else []

/-! Section: lemmas about the CSI matcher and the stripper. -/

theorem csiBody_cases {l b : List Char} (h : csiBody l = some b) :
    b.length < l.length ∧ b <:+ l := by
  cases l with
  | nil => simp [csiBody] at h
  | cons c rest =>
    by_cases h9 : c.toNat = 0x9B
    · simp [csiBody, h9] at h
      subst h
      exact ⟨by simp, List.suffix_cons c rest⟩
    · by_cases h1 : c.toNat = 0x1B
      · cases rest with
        | nil => simp [csiBody, h9, h1] at h
        | cons d rest2 =>
          by_cases hd : d.toNat = 0x5B
          · simp [csiBody, h9, h1, hd] at h
            subst h
            refine ⟨by simp; omega, ?_⟩
            exact (List.suffix_cons d rest2).trans (List.suffix_cons c (d :: rest2))
          · simp [csiBody, h9, h1, hd] at h
      · simp [csiBody, h9, h1] at h

theorem csiMatch_cases {l r : List Char} (h : csiMatch l = some r) :
    r.length < l.length ∧ r <:+ l := by
  unfold csiMatch at h
  cases hb : csiBody l with
  | none => rw [hb] at h; simp at h
  | some body =>
    rw [hb] at h
    dsimp only at h
    have hsuf : (body.dropWhile isCsiParam).dropWhile isCsiInter <:+ body :=
      (List.dropWhile_suffix _).trans (List.dropWhile_suffix _)
    cases hr : (body.dropWhile isCsiParam).dropWhile isCsiInter with
    | nil => rw [hr] at h; simp at h
    | cons f rest =>
      rw [hr] at h
      by_cases hf : isCsiFinal f
      · simp [hf] at h
        subst h
        rw [hr] at hsuf
        obtain ⟨hbl, hbs⟩ := csiBody_cases hb
        have hlen := hsuf.length_le
        refine ⟨by simp at hlen; omega, ?_⟩
        exact ((List.suffix_cons f rest).trans hsuf).trans hbs
      · simp [hf] at h

theorem csiMatch_length {l r : List Char} (h : csiMatch l = some r) :
    r.length < l.length := (csiMatch_cases h).1

theorem stripCSIFuel_congr :
    ∀ (n m : Nat) (l : List Char), l.length ≤ n → l.length ≤ m →
      stripCSIFuel n l = stripCSIFuel m l := by
  intro n
  induction n with
  | zero =>
    intro m l hn _
    have hl : l = [] := List.eq_nil_of_length_eq_zero (Nat.le_zero.mp hn)
    subst hl
    cases m <;> rfl
  | succ n ih =>
    intro m l hn hm
    cases l with
    | nil => cases m <;> rfl
    | cons c cs =>
      cases m with
      | zero => simp at hm
      | succ m =>
        simp only [stripCSIFuel]
        cases hq : csiMatch (c :: cs) with
        | some rest =>
          have hlen := csiMatch_length hq
          simp only [List.length_cons] at hn hm hlen
          exact ih m rest (by omega) (by omega)
        | none =>
          simp only [List.length_cons] at hn hm
          rw [ih m cs (by omega) (by omega)]

theorem stripCSI_nil : stripCSI [] = [] := rfl

theorem stripCSI_cons (c : Char) (cs : List Char) :
    stripCSI (c :: cs) =
      match csiMatch (c :: cs) with
      | some rest => stripCSI rest
      | none => c :: stripCSI cs := by
  show stripCSIFuel (cs.length + 1) (c :: cs) = _
  simp only [stripCSIFuel]
  cases hq : csiMatch (c :: cs) with
  | some rest =>
    have hlen := csiMatch_length hq
    simp only [List.length_cons] at hlen
    exact stripCSIFuel_congr cs.length rest.length rest (by omega) le_rfl
  | none => rfl

theorem csiMatch_none_of_head {c : Char} (cs : List Char)
    (h9 : c.toNat ≠ 0x9B) (h1 : c.toNat ≠ 0x1B) : csiMatch (c :: cs) = none := by
  simp [csiMatch, csiBody, h9, h1]

theorem stripCSI_sublist_fuel :
    ∀ (n : Nat) (l : List Char), l.length ≤ n → (stripCSI l).Sublist l := by
  intro n
  induction n with
  | zero =>
    intro l hn
    have hl : l = [] := List.eq_nil_of_length_eq_zero (Nat.le_zero.mp hn)
    subst hl
    simp [stripCSI_nil]
  | succ n ih =>
    intro l hn
    cases l with
    | nil => simp [stripCSI_nil]
    | cons c cs =>
      rw [stripCSI_cons]
      cases hq : csiMatch (c :: cs) with
      | some rest =>
        have hlen := csiMatch_length hq
        have hsuf := (csiMatch_cases hq).2
        simp only [List.length_cons] at hn hlen
        exact (ih rest (by omega)).trans hsuf.sublist
      | none =>
        simp only [List.length_cons] at hn
        exact List.Sublist.cons₂ c (ih cs (by omega))

theorem stripCSI_lossless_fuel :
    ∀ (n : Nat) (l : List Char), l.length ≤ n →
      (∀ c ∈ l, c.toNat ≠ 0x9B ∧ c.toNat ≠ 0x1B) → stripCSI l = l := by
  intro n
  induction n with
  | zero =>
    intro l hn _
    have hl : l = [] := List.eq_nil_of_length_eq_zero (Nat.le_zero.mp hn)
    subst hl
    exact stripCSI_nil
  | succ n ih =>
    intro l hn hall
    cases l with
    | nil => exact stripCSI_nil
    | cons c cs =>
      have hc := hall c (List.mem_cons_self c cs)
      rw [stripCSI_cons, csiMatch_none_of_head cs hc.1 hc.2]
      simp only [List.length_cons] at hn
      rw [ih cs (by omega) (fun x hx => hall x (List.mem_cons_of_mem c hx))]

theorem csiBody_decomp {l b : List Char} (h : csiBody l = some b) :
    l = [Char.ofNat 0x9B] ++ b ∨ l = [Char.ofNat 0x1B, '['] ++ b := by
  cases l with
  | nil => simp [csiBody] at h
  | cons c rest =>
    by_cases h9 : c.toNat = 0x9B
    · simp [csiBody, h9] at h
      subst h
      left
      have hc : c = Char.ofNat 0x9B := by
        have hcn := Char.ofNat_toNat c
        rw [h9] at hcn
        exact hcn.symm
      rw [hc]
      rfl
    · by_cases h1 : c.toNat = 0x1B
      · cases rest with
        | nil => simp [csiBody, h9, h1] at h
        | cons d rest2 =>
          by_cases hd : d.toNat = 0x5B
          · simp [csiBody, h9, h1, hd] at h
            subst h
            right
            have hc : c = Char.ofNat 0x1B := by
              have hcn := Char.ofNat_toNat c
              rw [h1] at hcn
              exact hcn.symm
            have hdc : d = '[' := by
              have hdn := Char.ofNat_toNat d
              rw [hd] at hdn
              exact hdn.symm.trans (by decide)
            rw [hc, hdc]
            rfl
          · simp [csiBody, h9, h1, hd] at h
      · simp [csiBody, h9, h1] at h

theorem csiMatch_span {l r : List Char} (h : csiMatch l = some r) :
    ∃ m, IsCsiSpan m ∧ l = m ++ r := by
  unfold csiMatch at h
  cases hb : csiBody l with
  | none => rw [hb] at h; simp at h
  | some body =>
    rw [hb] at h
    dsimp only at h
    cases hr : (body.dropWhile isCsiParam).dropWhile isCsiInter with
    | nil => rw [hr] at h; simp at h
    | cons f rest =>
      rw [hr] at h
      by_cases hf : isCsiFinal f
      · simp only [hf, if_true, Option.some.injEq] at h
        subst h
        have hP : body.takeWhile isCsiParam ++ body.dropWhile isCsiParam = body :=
          List.takeWhile_append_dropWhile isCsiParam body
        have hI : (body.dropWhile isCsiParam).takeWhile isCsiInter ++
            (body.dropWhile isCsiParam).dropWhile isCsiInter =
            body.dropWhile isCsiParam :=
          List.takeWhile_append_dropWhile isCsiInter (body.dropWhile isCsiParam)
        rw [hr] at hI
        have hbody : body = body.takeWhile isCsiParam ++
            ((body.dropWhile isCsiParam).takeWhile isCsiInter ++ (f :: rest)) := by
          conv_lhs => rw [← hP, ← hI]
        rcases csiBody_decomp hb with hlead | hlead
        · refine ⟨[Char.ofNat 0x9B] ++ body.takeWhile isCsiParam ++
              (body.dropWhile isCsiParam).takeWhile isCsiInter ++ [f],
            ⟨[Char.ofNat 0x9B], body.takeWhile isCsiParam,
              (body.dropWhile isCsiParam).takeWhile isCsiInter, f, rfl,
              Or.inl rfl, fun c hc => List.mem_takeWhile_imp hc,
              fun c hc => List.mem_takeWhile_imp hc, hf⟩, ?_⟩
          rw [hlead]
          conv_lhs => rw [hbody]
          simp [List.append_assoc]
        · refine ⟨[Char.ofNat 0x1B, '['] ++ body.takeWhile isCsiParam ++
              (body.dropWhile isCsiParam).takeWhile isCsiInter ++ [f],
            ⟨[Char.ofNat 0x1B, '['], body.takeWhile isCsiParam,
              (body.dropWhile isCsiParam).takeWhile isCsiInter, f, rfl,
              Or.inr rfl, fun c hc => List.mem_takeWhile_imp hc,
              fun c hc => List.mem_takeWhile_imp hc, hf⟩, ?_⟩
          rw [hlead]
          conv_lhs => rw [hbody]
          simp [List.append_assoc]
      · simp [hf] at h

theorem stripCSI_decomp_fuel :
    ∀ (n : Nat) (l : List Char), l.length ≤ n → StripDecomp l (stripCSI l) := by
  intro n
  induction n with
  | zero =>
    intro l hn
    have hl : l = [] := List.eq_nil_of_length_eq_zero (Nat.le_zero.mp hn)
    subst hl
    rw [stripCSI_nil]
    exact StripDecomp.nil
  | succ n ih =>
    intro l hn
    cases l with
    | nil => rw [stripCSI_nil]; exact StripDecomp.nil
    | cons c cs =>
      rw [stripCSI_cons]
      cases hq : csiMatch (c :: cs) with
      | some rest =>
        obtain ⟨m, hspan, heq⟩ := csiMatch_span hq
        have hlen := csiMatch_length hq
        simp only [List.length_cons] at hn hlen
        rw [heq]
        exact StripDecomp.remove hspan (ih rest (by omega))
      | none =>
        simp only [List.length_cons] at hn
        exact StripDecomp.keep c (ih cs (by omega))

theorem dropWhile_append_cons {p : Char → Bool} {c : Char} (hc : p c = false)
    (t b : List Char) : (t ++ c :: b).dropWhile p = t.dropWhile p ++ c :: b := by
  induction t with
  | nil => simp [List.dropWhile_cons, hc]
  | cons x t ih =>
    by_cases hx : p x <;> simp [List.dropWhile_cons, hx, ih]

theorem csiBody_append_nl (a b : List Char) :
    csiBody (a ++ '\n' :: b) = (csiBody a).map (fun r => r ++ '\n' :: b) := by
  cases a with
  | nil => simp [csiBody]
  | cons c rest =>
    by_cases h9 : c.toNat = 0x9B
    · simp [csiBody, h9]
    · by_cases h1 : c.toNat = 0x1B
      · cases rest with
        | nil => simp [csiBody, h9, h1]
        | cons d rest2 =>
          by_cases hd : d.toNat = 0x5B <;> simp [csiBody, h9, h1, hd]
      · simp [csiBody, h9, h1]

theorem csiMatch_append_nl (a b : List Char) :
    csiMatch (a ++ '\n' :: b) = (csiMatch a).map (fun r => r ++ '\n' :: b) := by
  unfold csiMatch
  rw [csiBody_append_nl]
  cases hb : csiBody a with
  | none => rfl
  | some body =>
    dsimp only [Option.map_some']
    rw [dropWhile_append_cons (by decide), dropWhile_append_cons (by decide)]
    cases hr : (body.dropWhile isCsiParam).dropWhile isCsiInter with
    | nil => simp [isCsiFinal]
    | cons f rest => by_cases hf : isCsiFinal f <;> simp [hf]

theorem stripCSI_append_nl_fuel :
    ∀ (n : Nat) (a b : List Char), a.length ≤ n →
      stripCSI (a ++ '\n' :: b) = stripCSI a ++ '\n' :: stripCSI b := by
  intro n
  induction n with
  | zero =>
    intro a b hn
    have ha : a = [] := List.eq_nil_of_length_eq_zero (Nat.le_zero.mp hn)
    subst ha
    rw [List.nil_append, stripCSI_nil, List.nil_append, stripCSI_cons,
      csiMatch_none_of_head b (by decide) (by decide)]
  | succ n ih =>
    intro a b hn
    cases a with
    | nil =>
      rw [List.nil_append, stripCSI_nil, List.nil_append, stripCSI_cons,
        csiMatch_none_of_head b (by decide) (by decide)]
    | cons c cs =>
      have key := csiMatch_append_nl (c :: cs) b
      rw [List.cons_append] at key
      simp only [List.length_cons] at hn
      cases hq : csiMatch (c :: cs) with
      | some rest =>
        rw [hq] at key
        dsimp only [Option.map_some'] at key
        rw [List.cons_append, stripCSI_cons, key, stripCSI_cons, hq]
        have hlen := csiMatch_length hq
        simp only [List.length_cons] at hlen
        exact ih rest b (by omega)
      | none =>
        rw [hq] at key
        dsimp only [Option.map_none'] at key
        rw [List.cons_append, stripCSI_cons, key, stripCSI_cons, hq,
          ih cs b (by omega), List.cons_append]

theorem stripCSI_append_nl (a b : List Char) :
    stripCSI (a ++ '\n' :: b) = stripCSI a ++ '\n' :: stripCSI b :=
  stripCSI_append_nl_fuel a.length a b le_rfl

theorem stripCSI_joinLines :
    ∀ segs : List (List Char),
      stripCSI (joinLines segs) = joinLines (segs.map stripCSI) := by
  intro segs
  induction segs with
  | nil => simp [joinLines, stripCSI_nil]
  | cons s rest ih =>
    cases rest with
    | nil => simp [joinLines]
    | cons t r =>
      show stripCSI (s ++ '\n' :: joinLines (t :: r)) = _
      rw [stripCSI_append_nl, ih]
      rfl

/-! Section: lemmas about the read loop state. -/

theorem lastAt_le (inw : Nat → List Nat) : ∀ k, lastAt inw k ≤ pollMs * k := by
  intro k
  induction k with
  | zero => simp [lastAt]
  | succ k ih =>
    by_cases h : inw k = [] <;> simp only [lastAt, h, if_true, if_pos, if_neg] <;>
      simp [pollMs] at * <;> omega

theorem lastAt_ge_of_data (inw : Nat → List Nat) :
    ∀ k j, j < k → inw j ≠ [] → pollMs * j ≤ lastAt inw k := by
  intro k
  induction k with
  | zero => omega
  | succ k ih =>
    intro j hj hne
    rcases Nat.lt_succ_iff_lt_or_eq.mp hj with hlt | heq
    · have := ih j hlt hne
      by_cases h : inw k = [] <;> simp only [lastAt, h, if_pos, if_neg] <;>
        simp [pollMs] at * <;> omega
    · subst heq
      simp [lastAt, hne]

theorem lastAt_silence {inw : Nat → List Nat} (h : ∀ j, inw j = []) :
    ∀ k, lastAt inw k = 0 := by
  intro k
  induction k with
  | zero => rfl
  | succ k ih => simp [lastAt, h k, ih]

theorem bufAt_silence {inw : Nat → List Nat} (h : ∀ j, inw j = []) :
    ∀ k, bufAt inw k = [] := by
  intro k
  induction k with
  | zero => rfl
  | succ k ih => simp [bufAt, h k, ih]

theorem bufAt_ne_of_data (inw : Nat → List Nat) :
    ∀ k j, j < k → inw j ≠ [] → bufAt inw k ≠ [] := by
  intro k
  induction k with
  | zero => omega
  | succ k ih =>
    intro j hj hne
    rcases Nat.lt_succ_iff_lt_or_eq.mp hj with hlt | heq
    · have hbuf := ih j hlt hne
      by_cases h : inw k = []
      · simpa [bufAt, h] using hbuf
      · simp [bufAt, h, List.append_eq_nil]
    · subst heq
      simp [bufAt, hne, List.append_eq_nil]

theorem bufAt_flatten (inw : Nat → List Nat) :
    ∀ k, bufAt inw k = ((List.range k).map inw).flatten := by
  intro k
  induction k with
  | zero => rfl
  | succ k ih =>
    rw [List.range_succ]
    by_cases h : inw k = [] <;> simp [bufAt, h, ih]

/-! Section: lemmas about operation traces. -/

theorem utf8Encode_append (a b : List Char) :
    utf8Encode (a ++ b) = utf8Encode a ++ utf8Encode b := by
  simp [utf8Encode]

theorem utf8Encode_crlf : utf8Encode crlf = [0x0D, 0x0A] := by decide

theorem writesOf_append (s t : List SerialOp) :
    writesOf (s ++ t) = writesOf s ++ writesOf t := by
  induction s with
  | nil => rfl
  | cons op r ih => cases op <;> simp [writesOf, ih]

theorem perchar_writesOf (l : List Char) :
    writesOf ((l.map fun c =>
        [SerialOp.write (utf8EncodeChar c), SerialOp.sleepMs 150]).flatten) =
      l.map utf8EncodeChar := by
  induction l with
  | nil => rfl
  | cons c r ih => simp only [List.map_cons, List.flatten_cons]; simp [writesOf, ih]

theorem perchar_msBeforeRead (l : List Char) (t : List SerialOp) :
    msBeforeRead ((l.map fun c =>
        [SerialOp.write (utf8EncodeChar c), SerialOp.sleepMs 150]).flatten ++ t) =
      150 * l.length + msBeforeRead t := by
  induction l with
  | nil => simp
  | cons c r ih =>
    simp only [List.map_cons, List.flatten_cons, List.cons_append, List.append_assoc]
    simp [msBeforeRead, ih]
    omega

/-! Section: the claims. -/

/-- C1: the claim says selecting the paced-transmission subcommand runs
the per-character send, with the Ctrl+C value selecting the interrupt
relay inside that path.  The code is wrong: the parser registers the
subcommand send_ls, but the dispatch compares against send906, a value
the parser can never produce, so send_ls falls through to
help-and-exit-1 and neither the paced send nor the relay is reachable
from any parseable subcommand. -/
theorem dispatch_paced_subcommand_dead (cmd : List String) :
    dispatch (some "send_ls") cmd = MainAction.printHelpAndExit1 ∧
    dispatch (some "send") cmd = MainAction.bulkSend ∧
    dispatch none cmd = MainAction.printHelpAndExit1 ∧
    ∀ sub ∈ parseableSubcommands,
      dispatch sub cmd ≠ MainAction.pacedSend ∧
      dispatch sub cmd ≠ MainAction.ctrlCRelay := by
  have hls : dispatch (some "send_ls") cmd = MainAction.printHelpAndExit1 := by
    rw [dispatch, if_neg (by decide), if_neg (by decide)]
  have hnone : dispatch none cmd = MainAction.printHelpAndExit1 := by
    rw [dispatch, if_neg (by decide), if_neg (by decide)]
  have hsend : dispatch (some "send") cmd = MainAction.bulkSend := by
    rw [dispatch, if_pos rfl]
  refine ⟨hls, hsend, hnone, ?_⟩
  intro sub hsub
  rcases (show sub = none ∨ sub = some "send" ∨ sub = some "send_ls" by
      simpa [parseableSubcommands] using hsub) with rfl | rfl | rfl
  · rw [hnone]; exact ⟨by decide, by decide⟩
  · rw [hsend]; exact ⟨by decide, by decide⟩
  · rw [hls]; exact ⟨by decide, by decide⟩

/-- C1 witness: the paced subcommand send_ls, applied to a concrete
command line, never reaches the paced send or the relay. -/
theorem dispatch_paced_subcommand_dead_witness :
    dispatch (some "send_ls") ["ls"] ≠ MainAction.pacedSend ∧
    dispatch (some "send_ls") ["Ctrl+C"] ≠ MainAction.ctrlCRelay :=
  ⟨((dispatch_paced_subcommand_dead ["ls"]).2.2.2 (some "send_ls") (by decide)).1,
   ((dispatch_paced_subcommand_dead ["Ctrl+C"]).2.2.2 (some "send_ls")
      (by decide)).2⟩

/-- C2: when the read loop first returns at iteration k, the return time
is strictly later than last_data_time plus the idle timeout and at most
one poll interval later than that; and when every window of d
consecutive polls contains an arrival, d polls spanning at most the
timeout, the loop never exits, at any iteration whatsoever. -/
theorem read_stream_idle_timing :
    ∀ (inw : Nat → List Nat) (timeoutMs k : Nat),
      (returnsFirstAt inw timeoutMs k →
        lastAt inw k + timeoutMs < pollMs * k ∧
        pollMs * k ≤ lastAt inw k + timeoutMs + pollMs) ∧
      (∀ d, 0 < d → pollMs * d ≤ timeoutMs →
        (∀ m, ∃ j, m ≤ j ∧ j < m + d ∧ inw j ≠ []) →
        ¬ exitsAt inw timeoutMs k) := by
  intro inw timeoutMs k
  constructor
  · rintro ⟨⟨he, hgt⟩, hmin⟩
    have hle := lastAt_le inw k
    refine ⟨by simp only [pollMs] at *; omega, ?_⟩
    cases k with
    | zero =>
      exfalso
      simp only [pollMs, lastAt, Nat.mul_zero, Nat.zero_sub] at hgt
      omega
    | succ j =>
      by_cases hj : inw j = []
      · have hnx := hmin j (Nat.lt_succ_self j)
        have h2 : pollMs * j - lastAt inw j ≤ timeoutMs := by
          by_contra hcon
          exact hnx ⟨hj, by omega⟩
        have hle2 := lastAt_le inw j
        have hval : lastAt inw (j + 1) = lastAt inw j := by simp [lastAt, hj]
        rw [hval]
        simp only [pollMs] at *
        omega
      · have hval : lastAt inw (j + 1) = pollMs * j := by simp [lastAt, hj]
        rw [hval]
        simp only [pollMs] at *
        omega
  · rintro d hd hdT harr ⟨he, hgt⟩
    obtain ⟨j, hj1, hj2, hjne⟩ := harr (k + 1 - d)
    have hle := lastAt_le inw k
    rcases Nat.lt_trichotomy j k with hlt | heq | hgt2
    · have hge := lastAt_ge_of_data inw k j hlt hjne
      simp only [pollMs] at *
      omega
    · exact hjne (heq ▸ he)
    · simp only [pollMs] at *
      omega

/-- C2 witness: a single chunk at the first poll with a 200 millisecond
timeout makes the loop return at iteration 3, inside the allowed window;
a chunk at every poll never lets iteration 7 exit. -/
theorem read_stream_idle_timing_witness :
    (lastAt arrOnce 3 + 200 < pollMs * 3 ∧
      pollMs * 3 ≤ lastAt arrOnce 3 + 200 + pollMs) ∧
    ¬ exitsAt arrAlways 200 7 := by
  constructor
  · exact (read_stream_idle_timing arrOnce 200 3).1 (by decide)
  · exact (read_stream_idle_timing arrAlways 200 7).2 1 (by decide) (by decide)
      (fun m => ⟨m, Nat.le_refl m, by omega, by simp [arrAlways]⟩)

/-- C3 counterexample: the claim says the stripped output contains no
CSI sequence; but stripping this buffer leaves the text ESC, bracket, m,
itself a complete CSI sequence, because the scan never revisits bytes
that become adjacent after a removal. -/
theorem strip_output_contains_csi_counterexample :
    stripCSI c3Input = ['\x1B', '[', 'm'] ∧
    containsCSI (stripCSI c3Input) = true := by decide

/-- C3 (amended): for every input, the stripped output arises from the
input by deleting whole CSI sequences only — a StripDecomp derivation
keeps every byte outside a deleted sequence unchanged and in its
original order, and certifies that each deleted segment is introducer,
parameter bytes, intermediate bytes and one final byte; the output is a
subsequence of the input of length at most the input length, and a text
containing no introducer byte is returned unchanged.  However the output
can still contain a CSI sequence formed by bytes that a removal made
adjacent. -/
theorem strip_sublist_lossless :
    ∀ l : List Char,
      StripDecomp l (stripCSI l) ∧
      (stripCSI l).Sublist l ∧
      (stripCSI l).length ≤ l.length ∧
      ((∀ c ∈ l, c.toNat ≠ 0x9B ∧ c.toNat ≠ 0x1B) → stripCSI l = l) :=
  fun l =>
    ⟨stripCSI_decomp_fuel l.length l le_rfl,
     stripCSI_sublist_fuel l.length l le_rfl,
     (stripCSI_sublist_fuel l.length l le_rfl).length_le,
     stripCSI_lossless_fuel l.length l le_rfl⟩

/-- C3 witness: instantiation at a small plain text. -/
theorem strip_sublist_lossless_witness :
    StripDecomp ['O', 'K'] (stripCSI ['O', 'K']) ∧
    (stripCSI ['O', 'K']).Sublist ['O', 'K'] ∧
    (stripCSI ['O', 'K']).length ≤ 2 ∧
    stripCSI ['O', 'K'] = ['O', 'K'] :=
  ⟨(strip_sublist_lossless ['O', 'K']).1,
   (strip_sublist_lossless ['O', 'K']).2.1,
   (strip_sublist_lossless ['O', 'K']).2.2.1,
   (strip_sublist_lossless ['O', 'K']).2.2.2 (by decide)⟩

/-- C4 counterexample: the claim says the cleanup output is exactly the
kept stripped segments joined with single newlines; but when a kept
segment ends in a bare carriage return, the final replace collapses the
carriage return and the joining newline into one newline, so the output
differs from the claimed join. -/
theorem buffered_cleanup_counterexample :
    print_serial_log_buffered c4Input = ['x', '\n', 'y'] ∧
    joinLines ((keptSegments c4Input).map stripCSI) = ['x', '\r', '\n', 'y'] ∧
    print_serial_log_buffered c4Input ≠
      joinLines ((keptSegments c4Input).map stripCSI) := by decide

/-- C4 (amended): for raw text with at least two segments, the buffered
cleanup outputs segments 2 to N-1 with empty segments removed, in
original order, each stripped of escape sequences, joined with a single
newline per line, and finally with every remaining carriage-return plus
newline pair collapsed to one newline. -/
theorem buffered_cleanup_spec :
    ∀ raw : List Char, 2 ≤ (splitCRLF raw).length →
      print_serial_log_buffered raw =
        replCRLF (joinLines ((keptSegments raw).map stripCSI)) := by
  intro raw _
  unfold print_serial_log_buffered
  rw [stripCSI_joinLines]

/-- C4 witness: instantiation at a three-segment raw log. -/
theorem buffered_cleanup_spec_witness :
    2 ≤ (splitCRLF c4Witness).length ∧
    print_serial_log_buffered c4Witness =
      replCRLF (joinLines ((keptSegments c4Witness).map stripCSI)) :=
  ⟨by decide, buffered_cleanup_spec c4Witness (by decide)⟩

/-- C5: the bulk send performs exactly one write, whose payload is the
encoded command followed by the CR LF terminator, writes nothing else,
and sleeps the fixed 500 millisecond settle delay before the read phase
begins. -/
theorem send_cmd_bulk_spec :
    ∀ cmd : List Char,
      writesOf (send_cmd cmd) = [utf8Encode cmd ++ [0x0D, 0x0A]] ∧
      bytesWritten (send_cmd cmd) = utf8Encode cmd ++ [0x0D, 0x0A] ∧
      msBeforeRead (send_cmd cmd) = 500 := by
  intro cmd
  have h : utf8Encode (cmd ++ crlf) = utf8Encode cmd ++ [0x0D, 0x0A] := by
    rw [utf8Encode_append, utf8Encode_crlf]
  refine ⟨?_, ?_, rfl⟩
  · simp [send_cmd, writesOf, h]
  · simp [send_cmd, bytesWritten, writesOf, h]

/-- C6: the paced send first writes the bare terminator and sleeps one
second (draining pending input just afterwards when there is any), then
writes each character of the command plus terminator one at a time in
order with a 150 millisecond sleep after each, so the wire sees the
wake-up terminator followed by the encoded command and terminator, and
the read phase starts exactly 1000 plus 150 times (length plus 2)
milliseconds in, no sooner than one inter-character delay per
transmitted character after the wake-up delay. -/
theorem send_paced_spec :
    ∀ (cmd : List Char) (pending : Bool),
      writesOf (send_cmd_char_by_char cmd pending) =
        [0x0D, 0x0A] :: (cmd ++ crlf).map utf8EncodeChar ∧
      bytesWritten (send_cmd_char_by_char cmd pending) =
        [0x0D, 0x0A] ++ utf8Encode cmd ++ [0x0D, 0x0A] ∧
      msBeforeRead (send_cmd_char_by_char cmd pending) =
        1000 + 150 * (cmd.length + 2) ∧
      1000 + 150 * (cmd ++ crlf).length ≤
        msBeforeRead (send_cmd_char_by_char cmd pending) ∧
      (send_cmd_char_by_char cmd true).take 3 =
        [SerialOp.write [0x0D, 0x0A], SerialOp.sleepMs 1000,
          SerialOp.discardInput] ∧
      (send_cmd_char_by_char cmd false).take 2 =
        [SerialOp.write [0x0D, 0x0A], SerialOp.sleepMs 1000] := by
  intro cmd pending
  have hw : writesOf (send_cmd_char_by_char cmd pending) =
      [0x0D, 0x0A] :: (cmd ++ crlf).map utf8EncodeChar := by
    cases pending <;>
      simp [send_cmd_char_by_char, writesOf_append, writesOf, perchar_writesOf,
        crlf]
  have hb : bytesWritten (send_cmd_char_by_char cmd pending) =
      [0x0D, 0x0A] ++ utf8Encode cmd ++ [0x0D, 0x0A] := by
    rw [bytesWritten, hw]
    show [0x0D, 0x0A] ++ utf8Encode (cmd ++ crlf) = _
    rw [utf8Encode_append, utf8Encode_crlf, List.append_assoc]
  have hm : msBeforeRead (send_cmd_char_by_char cmd pending) =
      1000 + 150 * (cmd.length + 2) := by
    cases pending <;>
      simp [send_cmd_char_by_char, msBeforeRead, perchar_msBeforeRead, crlf] <;>
      omega
  refine ⟨hw, hb, hm, ?_, rfl, rfl⟩
  rw [hm]
  simp [crlf]

/-- C7: a user cancellation observed during the read loop relays exactly
one control byte of value 3 to the device, returns no buffer to the
caller no matter how many bytes were already accumulated, and the
program ends through the controlled manual-stop exit with the session
Closed. -/
theorem read_interrupt_spec :
    ∀ (s : LinkState) (rbuf : List Nat),
      (read_stream_interrupted s rbuf).1.written = s.written ++ [0x03] ∧
      (read_stream_interrupted s rbuf).2 = ReadResult.stoppedManually ∧
      (read_stream_interrupted s rbuf).1.is_open = false := by
  intro s rbuf
  cases s with
  | mk o w =>
    cases o <;> simp [read_stream_interrupted, send_ctrl_c, writeBytes, close]

/-- C8: with no bytes ever arriving, the read loop completes normally at
the first iteration past the idle timeout and returns the empty buffer;
and a first return preceded by any arrival carries a non-empty buffer.
Both completions go through the same normal break path. -/
theorem read_silence_spec :
    ∀ (inw : Nat → List Nat) (timeoutMs : Nat),
      ((∀ j, inw j = []) →
        returnsFirstAt inw timeoutMs (timeoutMs / pollMs + 1) ∧
        bufAt inw (timeoutMs / pollMs + 1) = []) ∧
      (∀ k, returnsFirstAt inw timeoutMs k →
        (∃ j, j < k ∧ inw j ≠ []) → bufAt inw k ≠ []) := by
  intro inw timeoutMs
  constructor
  · intro hs
    refine ⟨⟨⟨hs _, ?_⟩, ?_⟩, bufAt_silence hs _⟩
    · rw [lastAt_silence hs]
      simp only [pollMs]
      omega
    · intro j hj ⟨_, hgt⟩
      rw [lastAt_silence hs] at hgt
      simp only [pollMs] at hj hgt
      omega
  · rintro k _ ⟨j, hj, hne⟩
    exact bufAt_ne_of_data inw k j hj hne

/-- C8 witness: total silence with a 250 millisecond timeout returns the
empty buffer at iteration 3; one early chunk makes the returned buffer
non-empty. -/
theorem read_silence_spec_witness :
    (returnsFirstAt arrNever 250 3 ∧ bufAt arrNever 3 = []) ∧
    bufAt arrOnceData 3 ≠ [] := by
  constructor
  · exact (read_silence_spec arrNever 250).1 (fun _ => rfl)
  · exact (read_silence_spec arrOnceData 250).2 3 (by decide)
      ⟨0, by omega, by simp [arrOnceData]⟩

/-- C9: close is idempotent: a second close leaves the state unchanged
and performs no underlying close operation; close on an already-closed
session is the identity; close on an open session releases the link and
leaves the session not open. -/
theorem close_idempotent_spec :
    ∀ s : LinkState,
      (close (close s).1).1 = (close s).1 ∧
      (close (close s).1).2 = false ∧
      (close s).1.is_open = false ∧
      (s.is_open = false → close s = (s, false)) ∧
      (s.is_open = true → (close s).2 = true) := by
  intro s
  cases s with
  | mk o w => cases o <;> simp [close]

/-- C9 witness: instantiation at a closed and at an open session. -/
theorem close_idempotent_spec_witness :
    close ⟨false, []⟩ = (⟨false, []⟩, false) ∧ (close ⟨true, []⟩).2 = true :=
  ⟨(close_idempotent_spec ⟨false, []⟩).2.2.2.1 rfl,
   (close_idempotent_spec ⟨true, []⟩).2.2.2.2 rfl⟩

/-- C10: the buffer the read loop returns is the raw concatenation of
every arrived chunk in arrival order, while the printed log is computed
from a transformed copy: whitespace bytes stripped from both ends, then
decoded as UTF-8 with undecodable bytes dropped, so the log can omit
bytes present in the returned buffer (here the byte 255). -/
theorem read_raw_buffer_log_spec :
    (∀ (inw : Nat → List Nat) (k : Nat),
      bufAt inw k = ((List.range k).map inw).flatten) ∧
    log_msg_of [0x20, 0x41, 0x09] = ['A'] ∧
    log_msg_of [0x41, 0xFF, 0x42] = ['A', 'B'] ∧
    (log_msg_of [0x41, 0xFF, 0x42]).length <
      ([0x41, 0xFF, 0x42] : List Nat).length :=
  ⟨fun inw k => bufAt_flatten inw k, by decide, by decide, by decide⟩

end SerialEcho
